import Mathlib

/-!
Shallow embedding of the core of the Scacchi chess engine (`src/main.rs`):
the static evaluator (`calc_piece_value`, `calc_pieces_value`,
`calc_board_value`), the recursive alpha-beta searcher (`alpha_beta`) with
its threaded leaf counter, and the root driver (`find_best_move`).

The Rules Engine (the `chess` crate) is an external collaborator; it is
modelled abstractly by the `Engine` structure, exactly through the contract
the core uses: `status`, `side_to_move`, `MoveGen::new_legal` (a list of
legal moves in a fixed order), `make_move`, and the per-piece-kind square
enumeration with `color_on` used by the evaluator.

Machine integers: the code uses `i64` for scores and the counter.  All
arithmetic the core performs on them (comparisons, `max`/`min`, `total + 1`,
negation/addition of small table constants) is modelled on `Int`; the
sentinels `i64::MIN` / `i64::MAX` are the concrete constants `I64_MIN` /
`I64_MAX` below.  Search depth is the `i8` `depth` argument, only ever used
non-negatively (`depth == 0` test, `depth - 1` recursion); it is modelled as
`Nat`.
-/

namespace Scacchi

/-- `chess::Color`. -/
inductive Color where
  | white
  | black
deriving DecidableEq, Repr

/-- `chess::BoardStatus`. -/
inductive BoardStatus where
  | ongoing
  | stalemate
  | checkmate
deriving DecidableEq, Repr

/-- `i64::MIN`, the sentinel used for `best_value` in the maximizing branch
and for the full window's lower bound. -/
def I64_MIN : Int := -(2 ^ 63)

/-- `i64::MAX`. -/
def I64_MAX : Int := 2 ^ 63 - 1

/-- Modelled from the spec: the repository's `piece_values` module
(constants `PIECE_VALS`, `PIECE_SQUARES`, `PIECES`) is declared in
`main.rs` (`mod piece_values;`) but its file is not under `src/`.  Per §3 of
the spec it is "a fixed mapping from piece kind (Pawn, Knight, Bishop, Rook,
Queen, King) to a base material score, and, per piece kind, a fixed ordered
table of 64 positional bonuses indexed by square (0–63)" — constant data
whose concrete numbers the spec does not give, so they are abstract here.
`vals pc` is `PIECE_VALS[pc]` and `squares pc sq` is
`PIECE_SQUARES[pc][sq]`, with piece kinds indexed `0..6` as in the code's
`pc_idx` loop. -/
structure PieceTables where
  vals : Fin 6 → Int
  squares : Fin 6 → Fin 64 → Int

/-- The Rules Engine (the external `chess` crate), abstracted through
exactly the operations `main.rs` uses.  `legalMoves` is
`MoveGen::new_legal` as a list in the generator's fixed enumeration order;
`applyMove` is `Board::make_move` into a fresh board; `piecesOf p k` is the
bitboard iteration `for square in *board.pieces(PIECES[k])` as the list of
occupied squares (each square's `to_index()`), and `colorOn` is
`Board::color_on`. -/
structure Engine (Pos Mv : Type) where
  status : Pos → BoardStatus
  sideToMove : Pos → Color
  legalMoves : Pos → List Mv
  applyMove : Pos → Mv → Pos
  piecesOf : Pos → Fin 6 → List (Fin 64)
  colorOn : Pos → Fin 64 → Option Color

/-- The mirrored square index `63 - sq_idx` used for Black pieces. -/
def mirror_sq (sq : Fin 64) : Fin 64 :=
  ⟨63 - sq.val, by omega⟩

/-- `calc_piece_value`: `-(PIECE_VALS[pc] + PIECE_SQUARES[pc][sq])` for a
White piece, the same with the mirrored square index for a Black piece, and
`0` when `color_on` returns `None`. -/
def calc_piece_value (T : PieceTables) (pc : Fin 6) (sq : Fin 64) :
    Option Color → Int
  | some Color.white => -(T.vals pc + T.squares pc sq)
  | some Color.black => -(T.vals pc + T.squares pc (mirror_sq sq))
  | none => 0

section Core

variable {Pos Mv : Type} (e : Engine Pos Mv) (T : PieceTables)

/-- `calc_pieces_value`: sum of `calc_piece_value` over the six piece kinds
and, per kind, over the occupied squares of that kind's bitboard. -/
def calc_pieces_value (p : Pos) : Int :=
  (List.finRange 6).foldl
    (fun acc pc =>
      (e.piecesOf p pc).foldl
        (fun acc2 sq => acc2 + calc_piece_value T pc sq (e.colorOn p sq))
        acc)
    0

/-- `calc_board_value`: `calc_pieces_value` when Ongoing, `0` on Stalemate,
`±20000` on Checkmate depending on the side to move. -/
def calc_board_value (p : Pos) : Int :=
  match e.status p with
  | BoardStatus.ongoing => calc_pieces_value e T p
  | BoardStatus.stalemate => 0
  | BoardStatus.checkmate =>
      if e.sideToMove p = Color.white then 20000 else -20000

/-- The `for mv in moves` loop of `alpha_beta`'s maximizing branch.
`f` is the recursive call at depth `depth - 1`; the state is
`(best_value, alpha, beta, total)`, and the loop breaks (returning the
current `best_value` and counter) as soon as `beta <= alpha` after the
updates `best_value = max(value, best_value)`, `alpha = max(alpha,
best_value)`. -/
def maxLoop (f : Pos → Int → Int → Int → Int × Int) (p : Pos) :
    List Mv → Int → Int → Int → Int → Int × Int
  | [], best, _, _, total => (best, total)
  | mv :: ms, best, alpha, beta, total =>
      let r := f (e.applyMove p mv) alpha beta total
      let best2 := max r.1 best
      let alpha2 := max alpha best2
      if beta ≤ alpha2 then (best2, r.2)
      else maxLoop f p ms best2 alpha2 beta r.2

/-- The `for mv in moves` loop of `alpha_beta`'s minimizing branch:
`best_value = min(value, best_value)`, `beta = min(beta, best_value)`,
break when `beta <= alpha`. -/
def minLoop (f : Pos → Int → Int → Int → Int × Int) (p : Pos) :
    List Mv → Int → Int → Int → Int → Int × Int
  | [], best, _, _, total => (best, total)
  | mv :: ms, best, alpha, beta, total =>
      let r := f (e.applyMove p mv) alpha beta total
      let best2 := min r.1 best
      let beta2 := min beta best2
      if beta2 ≤ alpha then (best2, r.2)
      else minLoop f p ms best2 alpha beta2 r.2

/-- `alpha_beta(board, depth, is_max, alpha, beta, total) -> i64`, with the
`&mut i64` leaf counter made explicit: the result is the returned value
paired with the counter's final contents.  Terminal (depth `0` or status
not Ongoing): bump the counter and return `calc_board_value`.  Otherwise
run the maximizing or minimizing loop over the legal moves, starting from
the sentinel `i64::MIN` / `i64::MAX`, recursing at `depth - 1` with the
flag flipped and the current window. -/
def alpha_beta : Nat → Pos → Bool → Int → Int → Int → Int × Int
  | 0, p, _, _, _, total => (calc_board_value e T p, total + 1)
  | d + 1, p, is_max, alpha, beta, total =>
      if e.status p ≠ BoardStatus.ongoing then
        (calc_board_value e T p, total + 1)
      else if is_max then
        maxLoop e (fun q a b t => alpha_beta d q false a b t) p
          (e.legalMoves p) I64_MIN alpha beta total
      else
        minLoop e (fun q a b t => alpha_beta d q true a b t) p
          (e.legalMoves p) I64_MAX alpha beta total

/-- The maximizing loop with the cutoff condition disabled.  With the
cutoff never triggered the window no longer influences anything (it is
only read by the cutoff test and passed through), so it is dropped:
`best_value = max(value, best_value)` over the whole move list. -/
def maxLoopFull (f : Pos → Int → Int × Int) (p : Pos) :
    List Mv → Int → Int → Int × Int
  | [], best, total => (best, total)
  | mv :: ms, best, total =>
      let r := f (e.applyMove p mv) total
      maxLoopFull f p ms (max r.1 best) r.2

/-- The minimizing loop with the cutoff condition disabled. -/
def minLoopFull (f : Pos → Int → Int × Int) (p : Pos) :
    List Mv → Int → Int → Int × Int
  | [], best, total => (best, total)
  | mv :: ms, best, total =>
      let r := f (e.applyMove p mv) total
      minLoopFull f p ms (min r.1 best) r.2

/-- `alpha_beta` with the cutoff condition (`beta <= alpha`) disabled:
plain minimax over the same tree, with the same terminal case and the same
threaded leaf counter. -/
def minimax : Nat → Pos → Bool → Int → Int × Int
  | 0, p, _, total => (calc_board_value e T p, total + 1)
  | d + 1, p, is_max, total =>
      if e.status p ≠ BoardStatus.ongoing then
        (calc_board_value e T p, total + 1)
      else if is_max then
        maxLoopFull e (fun q t => minimax d q false t) p
          (e.legalMoves p) I64_MIN total
      else
        minLoopFull e (fun q t => minimax d q true t) p
          (e.legalMoves p) I64_MAX total

end Core

/-- The comparison closure of `find_best_move`: `|x, y| x > y` when Black
is to move at the root, `|x, y| x < y` otherwise; called as
`is_better(value, best_value)`. -/
def is_better (black_move : Bool) (x y : Int) : Bool :=
  if black_move then decide (y < x) else decide (x < y)

section Driver

variable {Pos Mv : Type} (e : Engine Pos Mv) (T : PieceTables)

/-- The root `for mv in moves` loop of `find_best_move`.  Each root move is
applied, searched with `alpha_beta` at depth `d` (not `d - 1`), with
`is_max = black_move` (the root's own flag, unflipped), a fresh full window
`(i64::MIN, i64::MAX)`, and the single counter `total` threaded across all
root sub-searches; the incumbent `(best_value, best_move)` is replaced only
when `is_better(value, best_value)` holds. -/
def fbmLoop (d : Nat) (black_move : Bool) (p : Pos) :
    List Mv → Int → Option Mv → Int → Option Mv × Int × Int
  | [], best, bm, total => (bm, best, total)
  | mv :: ms, best, bm, total =>
      let r := alpha_beta e T d (e.applyMove p mv) black_move I64_MIN I64_MAX
        total
      if is_better black_move r.1 best then
        fbmLoop d black_move p ms r.1 (some mv) r.2
      else
        fbmLoop d black_move p ms best bm r.2

/-- `find_best_move(board, depth)` with its local state exposed: the result
is `(best_move, best_value, total)` at the end of the root loop.
`black_move = (side_to_move == Black)`; `best_value` starts at `i64::MIN`
when maximizing (Black) and `i64::MAX` when minimizing (White); `total`
starts at `0`. -/
def find_best_move_total (p : Pos) (d : Nat) : Option Mv × Int × Int :=
  let black_move := decide (e.sideToMove p = Color.black)
  let init : Int := if black_move then I64_MIN else I64_MAX
  fbmLoop e T d black_move p (e.legalMoves p) init none 0

/-- `find_best_move(board, depth) -> Option<ChessMove>`: the move component
of `find_best_move_total` (the Rust function drops `best_value` and
`total`). -/
def find_best_move (p : Pos) (d : Nat) : Option Mv :=
  (find_best_move_total e T p d).1

/-- The score `find_best_move` assigns to one root move: the value of the
sub-search on the child position, at depth `d` (the root ply depth,
undecremented), with `is_max` equal to the root's own `black_move` flag,
and a fresh full window; the counter does not influence it, so it is taken
at counter `0`. -/
def rootScore (p : Pos) (d : Nat) (mv : Mv) : Int :=
  (alpha_beta e T d (e.applyMove p mv)
    (decide (e.sideToMove p = Color.black)) I64_MIN I64_MAX 0).1

end Driver

/-- The pure selection rule of the root loop, separated from the searches:
scan the scored moves in order and keep the first strict improvement over
the running best. -/
def selectBest {Mv : Type} (black_move : Bool) :
    List (Mv × Int) → Int → Option Mv → Option Mv
  | [], _, bm => bm
  | (mv, v) :: ms, best, bm =>
      if is_better black_move v best then selectBest black_move ms v (some mv)
      else selectBest black_move ms best bm

section FuelDefs

variable {Pos Mv : Type} (e : Engine Pos Mv) (T : PieceTables)

/-- `maxLoop` for the fuel-instrumented searcher: the recursive call may
run out of fuel, in which case the whole loop reports `none`. -/
def maxLoopB (f : Pos → Int → Int → Int → Option (Int × Int)) (p : Pos) :
    List Mv → Int → Int → Int → Int → Option (Int × Int)
  | [], best, _, _, total => some (best, total)
  | mv :: ms, best, alpha, beta, total =>
      match f (e.applyMove p mv) alpha beta total with
      | none => none
      | some r =>
          let best2 := max r.1 best
          let alpha2 := max alpha best2
          if beta ≤ alpha2 then some (best2, r.2)
          else maxLoopB f p ms best2 alpha2 beta r.2

/-- `minLoop` for the fuel-instrumented searcher. -/
def minLoopB (f : Pos → Int → Int → Int → Option (Int × Int)) (p : Pos) :
    List Mv → Int → Int → Int → Int → Option (Int × Int)
  | [], best, _, _, total => some (best, total)
  | mv :: ms, best, alpha, beta, total =>
      match f (e.applyMove p mv) alpha beta total with
      | none => none
      | some r =>
          let best2 := min r.1 best
          let beta2 := min beta best2
          if beta2 ≤ alpha then some (best2, r.2)
          else minLoopB f p ms best2 alpha beta2 r.2

/-- `alpha_beta` instrumented with a fuel bound on the recursion depth:
each nested call consumes one unit of fuel, and the search reports `none`
if fuel runs out before a terminal case is reached.  Depth is carried as
the separate second argument, decremented exactly as the code's
`depth - 1`; the game status is inspected but never relied upon for
termination. -/
def alpha_beta_bounded : Nat → Nat → Pos → Bool → Int → Int → Int →
    Option (Int × Int)
  | 0, _, _, _, _, _, _ => none
  | fuel + 1, d, p, is_max, alpha, beta, total =>
      if d = 0 ∨ e.status p ≠ BoardStatus.ongoing then
        some (calc_board_value e T p, total + 1)
      else if is_max then
        maxLoopB e (fun q a b t => alpha_beta_bounded fuel (d - 1) q false a b t)
          p (e.legalMoves p) I64_MIN alpha beta total
      else
        minLoopB e (fun q a b t => alpha_beta_bounded fuel (d - 1) q true a b t)
          p (e.legalMoves p) I64_MAX alpha beta total

end FuelDefs

/-- §4.1's wording of the per-piece contribution, for a piece whose owning
color is known: "contribution = −(base material value of the piece kind +
positional bonus at the computed square index)", where the computed square
index is the location for a White piece and the mirrored `63 − location`
for a Black piece.  The same negative term regardless of color. -/
def spec_contribution (T : PieceTables) (c : Color) (pc : Fin 6)
    (loc : Fin 64) : Int :=
  -(T.vals pc + T.squares pc (if c = Color.black then mirror_sq loc else loc))

/-- §4.1's wording of the Ongoing total: the sum, over every piece on the
board of either color, of `spec_contribution` (an unowned square — which
the Rules Engine never reports for an occupied square — contributes
nothing). -/
def spec_pieces_value {Pos Mv : Type} (e : Engine Pos Mv) (T : PieceTables)
    (p : Pos) : Int :=
  ((List.finRange 6).map (fun pc =>
    ((e.piecesOf p pc).map (fun sq =>
      match e.colorOn p sq with
      | some c => spec_contribution T c pc sq
      | none => 0)).sum)).sum

/-- A tiny concrete Rules Engine instance used to exercise the theorems:
position `0` is Ongoing (White to move) with two legal moves leading to
positions `1` (Checkmate, White to move) and `2` (Stalemate); position `3`
is Checkmate with Black to move.  Position `0` holds one White pawn on
square 8 and one Black pawn on square 55. -/
def testEngine : Engine (Fin 4) (Fin 2) where
  status p :=
    if p = 0 then BoardStatus.ongoing
    else if p = 2 then BoardStatus.stalemate
    else BoardStatus.checkmate
  sideToMove p := if p = 3 then Color.black else Color.white
  legalMoves p := if p = 0 then [0, 1] else []
  applyMove p mv := if p = 0 then (if mv = 0 then 1 else 2) else p
  piecesOf p pc := if p = 0 ∧ pc = 0 then [⟨8, by omega⟩, ⟨55, by omega⟩] else []
  colorOn p sq :=
    if p = 0 ∧ sq.val = 8 then some Color.white
    else if p = 0 ∧ sq.val = 55 then some Color.black
    else none

/-- Concrete piece tables for the test engine. -/
def testTables : PieceTables where
  vals _ := 1
  squares _ sq := sq.val

/-- Folding `acc + g x` over a list starting from `a` is `a` plus the sum
of the images. -/
theorem foldl_add_map {α : Type} (g : α → Int) :
    ∀ (l : List α) (a : Int),
      l.foldl (fun acc x => acc + g x) a = a + (l.map g).sum
  | [], a => by simp
  | x :: l, a => by
      rw [List.foldl_cons, foldl_add_map g l (a + g x)]
      simp [add_assoc]

/-- `calc_pieces_value` as a sum of per-piece terms. -/
theorem calc_pieces_value_eq_sum {Pos Mv : Type} (e : Engine Pos Mv)
    (T : PieceTables) (p : Pos) :
    calc_pieces_value e T p =
      ((List.finRange 6).map (fun pc =>
        ((e.piecesOf p pc).map (fun sq =>
          calc_piece_value T pc sq (e.colorOn p sq))).sum)).sum := by
  unfold calc_pieces_value
  simp only [foldl_add_map]
  simp

section LoopLemmas

variable {Pos Mv : Type} (e : Engine Pos Mv) (T : PieceTables)

/-- The maximizing loop's result is at least its incoming `best_value`. -/
theorem maxLoop_ge_init (f : Pos → Int → Int → Int → Int × Int) (p : Pos) :
    ∀ (ms : List Mv) (b α β t : Int), b ≤ (maxLoop e f p ms b α β t).1 := by
  intro ms
  induction ms with
  | nil => intro b α β t; exact le_refl b
  | cons mv ms ih =>
      intro b α β t
      simp only [maxLoop]
      split
      · exact le_max_right _ b
      · exact le_trans (le_max_right _ b) (ih _ _ _ _)

/-- The minimizing loop's result is at most its incoming `best_value`. -/
theorem minLoop_le_init (f : Pos → Int → Int → Int → Int × Int) (p : Pos) :
    ∀ (ms : List Mv) (b α β t : Int), (minLoop e f p ms b α β t).1 ≤ b := by
  intro ms
  induction ms with
  | nil => intro b α β t; exact le_refl b
  | cons mv ms ih =>
      intro b α β t
      simp only [minLoop]
      split
      · exact min_le_right _ b
      · exact le_trans (ih _ _ _ _) (min_le_right _ b)

/-- Counter threading through the maximizing loop: the value returned does
not depend on the incoming counter, and the counter comes out incremented
by the run's own leaf count. -/
theorem maxLoop_total (f : Pos → Int → Int → Int → Int × Int) (p : Pos)
    (hf : ∀ q a b t, f q a b t = ((f q a b 0).1, t + (f q a b 0).2)) :
    ∀ (ms : List Mv) (b α β t : Int),
      maxLoop e f p ms b α β t =
        ((maxLoop e f p ms b α β 0).1, t + (maxLoop e f p ms b α β 0).2) := by
  intro ms
  induction ms with
  | nil => intro b α β t; simp [maxLoop]
  | cons mv ms ih =>
      intro b α β t
      simp only [maxLoop]
      rw [hf (e.applyMove p mv) α β t, hf (e.applyMove p mv) α β 0]
      simp only [zero_add]
      split
      · rfl
      · rw [ih _ _ _ ((f (e.applyMove p mv) α β 0).2),
          ih _ _ _ (t + (f (e.applyMove p mv) α β 0).2)]
        simp [add_assoc]

/-- Counter threading through the minimizing loop. -/
theorem minLoop_total (f : Pos → Int → Int → Int → Int × Int) (p : Pos)
    (hf : ∀ q a b t, f q a b t = ((f q a b 0).1, t + (f q a b 0).2)) :
    ∀ (ms : List Mv) (b α β t : Int),
      minLoop e f p ms b α β t =
        ((minLoop e f p ms b α β 0).1, t + (minLoop e f p ms b α β 0).2) := by
  intro ms
  induction ms with
  | nil => intro b α β t; simp [minLoop]
  | cons mv ms ih =>
      intro b α β t
      simp only [minLoop]
      rw [hf (e.applyMove p mv) α β t, hf (e.applyMove p mv) α β 0]
      simp only [zero_add]
      split
      · rfl
      · rw [ih _ _ _ ((f (e.applyMove p mv) α β 0).2),
          ih _ _ _ (t + (f (e.applyMove p mv) α β 0).2)]
        simp [add_assoc]

/-- The searcher never reads the leaf counter: its value component is
independent of the incoming counter, and the counter is advanced by the
search's own leaf count. -/
theorem alpha_beta_total :
    ∀ (d : Nat) (p : Pos) (m : Bool) (α β t : Int),
      alpha_beta e T d p m α β t =
        ((alpha_beta e T d p m α β 0).1, t + (alpha_beta e T d p m α β 0).2) := by
  intro d
  induction d with
  | zero => intro p m α β t; simp [alpha_beta, add_comm]
  | succ d ih =>
      intro p m α β t
      simp only [alpha_beta]
      split
      · simp [add_comm t 1]
      · split
        · exact maxLoop_total e (fun q a b t => alpha_beta e T d q false a b t)
            p (fun q a b t => ih q false a b t) (e.legalMoves p) I64_MIN α β t
        · exact minLoop_total e (fun q a b t => alpha_beta e T d q true a b t)
            p (fun q a b t => ih q true a b t) (e.legalMoves p) I64_MAX α β t

/-- Counter threading through the cutoff-free maximizing loop. -/
theorem maxLoopFull_total (f : Pos → Int → Int × Int) (p : Pos)
    (hf : ∀ q t, f q t = ((f q 0).1, t + (f q 0).2)) :
    ∀ (ms : List Mv) (b t : Int),
      maxLoopFull e f p ms b t =
        ((maxLoopFull e f p ms b 0).1, t + (maxLoopFull e f p ms b 0).2) := by
  intro ms
  induction ms with
  | nil => intro b t; simp [maxLoopFull]
  | cons mv ms ih =>
      intro b t
      simp only [maxLoopFull]
      rw [hf (e.applyMove p mv) t, hf (e.applyMove p mv) 0]
      simp only [zero_add]
      rw [ih _ ((f (e.applyMove p mv) 0).2),
        ih _ (t + (f (e.applyMove p mv) 0).2)]
      simp [add_assoc]

/-- Counter threading through the cutoff-free minimizing loop. -/
theorem minLoopFull_total (f : Pos → Int → Int × Int) (p : Pos)
    (hf : ∀ q t, f q t = ((f q 0).1, t + (f q 0).2)) :
    ∀ (ms : List Mv) (b t : Int),
      minLoopFull e f p ms b t =
        ((minLoopFull e f p ms b 0).1, t + (minLoopFull e f p ms b 0).2) := by
  intro ms
  induction ms with
  | nil => intro b t; simp [minLoopFull]
  | cons mv ms ih =>
      intro b t
      simp only [minLoopFull]
      rw [hf (e.applyMove p mv) t, hf (e.applyMove p mv) 0]
      simp only [zero_add]
      rw [ih _ ((f (e.applyMove p mv) 0).2),
        ih _ (t + (f (e.applyMove p mv) 0).2)]
      simp [add_assoc]

/-- The unpruned search never reads the leaf counter either. -/
theorem minimax_total :
    ∀ (d : Nat) (p : Pos) (m : Bool) (t : Int),
      minimax e T d p m t =
        ((minimax e T d p m 0).1, t + (minimax e T d p m 0).2) := by
  intro d
  induction d with
  | zero => intro p m t; simp [minimax, add_comm]
  | succ d ih =>
      intro p m t
      simp only [minimax]
      split
      · simp [add_comm t 1]
      · split
        · exact maxLoopFull_total e (fun q t => minimax e T d q false t) p
            (fun q t => ih q false t) (e.legalMoves p) I64_MIN t
        · exact minLoopFull_total e (fun q t => minimax e T d q true t) p
            (fun q t => ih q true t) (e.legalMoves p) I64_MAX t

/-- The value a cutoff-free maximizing pass computes, as a plain fold of
`max` over the children's true values. -/
def mmValFold (w : Pos → Int) (p : Pos) : List Mv → Int → Int
  | [], b => b
  | mv :: ms, b => mmValFold w p ms (max (w (e.applyMove p mv)) b)

/-- The value a cutoff-free minimizing pass computes. -/
def mmValFoldMin (w : Pos → Int) (p : Pos) : List Mv → Int → Int
  | [], b => b
  | mv :: ms, b => mmValFoldMin w p ms (min (w (e.applyMove p mv)) b)

/-- `max` commutes out of the fold's initial value. -/
theorem mmValFold_max (w : Pos → Int) (p : Pos) :
    ∀ (ms : List Mv) (x b : Int),
      mmValFold e w p ms (max x b) = max x (mmValFold e w p ms b) := by
  intro ms
  induction ms with
  | nil => intro x b; rfl
  | cons mv ms ih =>
      intro x b
      simp only [mmValFold]
      rw [max_left_comm, ih]

/-- `min` commutes out of the fold's initial value. -/
theorem mmValFoldMin_min (w : Pos → Int) (p : Pos) :
    ∀ (ms : List Mv) (x b : Int),
      mmValFoldMin e w p ms (min x b) = min x (mmValFoldMin e w p ms b) := by
  intro ms
  induction ms with
  | nil => intro x b; rfl
  | cons mv ms ih =>
      intro x b
      simp only [mmValFoldMin]
      rw [min_left_comm, ih]

/-- The cutoff-free maximizing loop computes the `max`-fold of the
children's values. -/
theorem maxLoopFull_fst (f : Pos → Int → Int × Int) (w : Pos → Int)
    (p : Pos) (hw : ∀ q t, (f q t).1 = w q) :
    ∀ (ms : List Mv) (b t : Int),
      (maxLoopFull e f p ms b t).1 = mmValFold e w p ms b := by
  intro ms
  induction ms with
  | nil => intro b t; rfl
  | cons mv ms ih =>
      intro b t
      simp only [maxLoopFull, mmValFold]
      rw [ih, hw]

/-- The cutoff-free minimizing loop computes the `min`-fold of the
children's values. -/
theorem minLoopFull_fst (f : Pos → Int → Int × Int) (w : Pos → Int)
    (p : Pos) (hw : ∀ q t, (f q t).1 = w q) :
    ∀ (ms : List Mv) (b t : Int),
      (minLoopFull e f p ms b t).1 = mmValFoldMin e w p ms b := by
  intro ms
  induction ms with
  | nil => intro b t; rfl
  | cons mv ms ih =>
      intro b t
      simp only [minLoopFull, mmValFoldMin]
      rw [ih, hw]

/-- Fail-soft window lemma for the maximizing loop.  `w` is the children's
true (unpruned) value; `hf` is the inductive hypothesis about the
recursive call on each child.  The loop's result `B`, against the fold `V`
of the true values: if `B` fails low it is an upper bound on `V`, if it
fails high it is a lower bound, and inside the window it equals `V`. -/
theorem maxLoop_window (f : Pos → Int → Int → Int → Int × Int)
    (w : Pos → Int) (p : Pos) (β : Int)
    (hf : ∀ q α t, I64_MIN ≤ α → α < β →
      (((f q α β t).1 ≤ α → w q ≤ (f q α β t).1) ∧
       (β ≤ (f q α β t).1 → (f q α β t).1 ≤ w q) ∧
       (α < (f q α β t).1 → (f q α β t).1 < β → (f q α β t).1 = w q))) :
    ∀ (ms : List Mv) (b α t : Int), I64_MIN ≤ α → b ≤ α → α < β →
      (((maxLoop e f p ms b α β t).1 ≤ α →
          mmValFold e w p ms b ≤ (maxLoop e f p ms b α β t).1) ∧
       (β ≤ (maxLoop e f p ms b α β t).1 →
          (maxLoop e f p ms b α β t).1 ≤ mmValFold e w p ms b) ∧
       (α < (maxLoop e f p ms b α β t).1 →
          (maxLoop e f p ms b α β t).1 < β →
          (maxLoop e f p ms b α β t).1 = mmValFold e w p ms b)) := by
  intro ms
  induction ms with
  | nil =>
      intro b α t hIa hba hab
      simp only [maxLoop, mmValFold]
      omega
  | cons mv ms ih =>
      intro b α t hIa hba hab
      obtain ⟨h1, h2, h3⟩ := hf (e.applyMove p mv) α t hIa hab
      simp only [maxLoop, mmValFold]
      have hVc : mmValFold e w p ms (max (w (e.applyMove p mv)) b) =
          max (w (e.applyMove p mv)) (mmValFold e w p ms b) :=
        mmValFold_max e w p ms _ b
      split
      case isTrue hcut =>
        dsimp only
        omega
      case isFalse hcut =>
        obtain ⟨c1, c2, c3⟩ :=
          ih (max (f (e.applyMove p mv) α β t).1 b)
            (max α (max (f (e.applyMove p mv) α β t).1 b))
            (f (e.applyMove p mv) α β t).2
            (by omega) (by omega) (by omega)
        have hge := maxLoop_ge_init e f p ms
          (max (f (e.applyMove p mv) α β t).1 b)
          (max α (max (f (e.applyMove p mv) α β t).1 b)) β
          (f (e.applyMove p mv) α β t).2
        have hVr : mmValFold e w p ms (max (f (e.applyMove p mv) α β t).1 b) =
            max (f (e.applyMove p mv) α β t).1 (mmValFold e w p ms b) :=
          mmValFold_max e w p ms _ b
        omega

/-- Fail-soft window lemma for the minimizing loop. -/
theorem minLoop_window (f : Pos → Int → Int → Int → Int × Int)
    (w : Pos → Int) (p : Pos) (α : Int)
    (hf : ∀ q β t, β ≤ I64_MAX → α < β →
      (((f q α β t).1 ≤ α → w q ≤ (f q α β t).1) ∧
       (β ≤ (f q α β t).1 → (f q α β t).1 ≤ w q) ∧
       (α < (f q α β t).1 → (f q α β t).1 < β → (f q α β t).1 = w q))) :
    ∀ (ms : List Mv) (b β t : Int), β ≤ I64_MAX → β ≤ b → α < β →
      (((minLoop e f p ms b α β t).1 ≤ α →
          mmValFoldMin e w p ms b ≤ (minLoop e f p ms b α β t).1) ∧
       (β ≤ (minLoop e f p ms b α β t).1 →
          (minLoop e f p ms b α β t).1 ≤ mmValFoldMin e w p ms b) ∧
       (α < (minLoop e f p ms b α β t).1 →
          (minLoop e f p ms b α β t).1 < β →
          (minLoop e f p ms b α β t).1 = mmValFoldMin e w p ms b)) := by
  intro ms
  induction ms with
  | nil =>
      intro b β t hIb hbb hab
      simp only [minLoop, mmValFoldMin]
      omega
  | cons mv ms ih =>
      intro b β t hIb hbb hab
      obtain ⟨h1, h2, h3⟩ := hf (e.applyMove p mv) β t hIb hab
      simp only [minLoop, mmValFoldMin]
      have hVc : mmValFoldMin e w p ms (min (w (e.applyMove p mv)) b) =
          min (w (e.applyMove p mv)) (mmValFoldMin e w p ms b) :=
        mmValFoldMin_min e w p ms _ b
      split
      case isTrue hcut =>
        dsimp only
        omega
      case isFalse hcut =>
        obtain ⟨c1, c2, c3⟩ :=
          ih (min (f (e.applyMove p mv) α β t).1 b)
            (min β (min (f (e.applyMove p mv) α β t).1 b))
            (f (e.applyMove p mv) α β t).2
            (by omega) (by omega) (by omega)
        have hle := minLoop_le_init e f p ms
          (min (f (e.applyMove p mv) α β t).1 b) α
          (min β (min (f (e.applyMove p mv) α β t).1 b))
          (f (e.applyMove p mv) α β t).2
        have hVr : mmValFoldMin e w p ms
              (min (f (e.applyMove p mv) α β t).1 b) =
            min (f (e.applyMove p mv) α β t).1 (mmValFoldMin e w p ms b) :=
          mmValFoldMin_min e w p ms _ b
        omega

/-- `I64_MIN < I64_MAX`. -/
theorem I64_MIN_lt_I64_MAX : I64_MIN < I64_MAX := by
  norm_num [I64_MIN, I64_MAX]

/-- Fail-soft correctness of the whole searcher, by induction on depth:
for any window `I64_MIN ≤ α < β ≤ I64_MAX`, the pruned value fails low
only above the true (unpruned) value, fails high only below it, and equals
it inside the window. -/
theorem alpha_beta_window :
    ∀ (d : Nat) (p : Pos) (m : Bool) (α β t : Int),
      I64_MIN ≤ α → β ≤ I64_MAX → α < β →
      (((alpha_beta e T d p m α β t).1 ≤ α →
          (minimax e T d p m 0).1 ≤ (alpha_beta e T d p m α β t).1) ∧
       (β ≤ (alpha_beta e T d p m α β t).1 →
          (alpha_beta e T d p m α β t).1 ≤ (minimax e T d p m 0).1) ∧
       (α < (alpha_beta e T d p m α β t).1 →
          (alpha_beta e T d p m α β t).1 < β →
          (alpha_beta e T d p m α β t).1 = (minimax e T d p m 0).1)) := by
  intro d
  induction d with
  | zero =>
      intro p m α β t hIa hIb hab
      exact ⟨fun _ => le_rfl, fun _ => le_rfl, fun _ _ => rfl⟩
  | succ d ih =>
      intro p m α β t hIa hIb hab
      simp only [alpha_beta, minimax]
      split
      case isTrue hterm =>
        dsimp only
        omega
      case isFalse hterm =>
        cases m with
        | true =>
            simp only [if_true]
            have hV : (maxLoopFull e (fun q t => minimax e T d q false t) p
                (e.legalMoves p) I64_MIN 0).1 =
                mmValFold e (fun q => (minimax e T d q false 0).1) p
                  (e.legalMoves p) I64_MIN := by
              refine maxLoopFull_fst e _ _ p (fun q t => ?_) _ _ _
              rw [minimax_total e T d q false t]
            rw [hV]
            exact maxLoop_window e (fun q a b t => alpha_beta e T d q false a b t)
              (fun q => (minimax e T d q false 0).1) p β
              (fun q α' t' hIa' hab' => ih q false α' β t' hIa' hIb hab')
              (e.legalMoves p) I64_MIN α t hIa hIa hab
        | false =>
            simp only [Bool.false_eq_true, if_false]
            have hV : (minLoopFull e (fun q t => minimax e T d q true t) p
                (e.legalMoves p) I64_MAX 0).1 =
                mmValFoldMin e (fun q => (minimax e T d q true 0).1) p
                  (e.legalMoves p) I64_MAX := by
              refine minLoopFull_fst e _ _ p (fun q t => ?_) _ _ _
              rw [minimax_total e T d q true t]
            rw [hV]
            exact minLoop_window e (fun q a b t => alpha_beta e T d q true a b t)
              (fun q => (minimax e T d q true 0).1) p α
              (fun q β' t' hIb' hab' => ih q true α β' t' hIa hIb' hab')
              (e.legalMoves p) I64_MAX β t hIb hIb hab

/-- The `max`-fold stays within `[I64_MIN, I64_MAX]` when its inputs do. -/
theorem mmValFold_bounds (w : Pos → Int) (p : Pos)
    (hw : ∀ q, I64_MIN ≤ w q ∧ w q ≤ I64_MAX) :
    ∀ (ms : List Mv) (b : Int), I64_MIN ≤ b → b ≤ I64_MAX →
      I64_MIN ≤ mmValFold e w p ms b ∧ mmValFold e w p ms b ≤ I64_MAX := by
  intro ms
  induction ms with
  | nil => intro b h1 h2; exact ⟨h1, h2⟩
  | cons mv ms ih =>
      intro b h1 h2
      simp only [mmValFold]
      have := hw (e.applyMove p mv)
      exact ih _ (by omega) (by omega)

/-- The `min`-fold stays within `[I64_MIN, I64_MAX]` when its inputs do. -/
theorem mmValFoldMin_bounds (w : Pos → Int) (p : Pos)
    (hw : ∀ q, I64_MIN ≤ w q ∧ w q ≤ I64_MAX) :
    ∀ (ms : List Mv) (b : Int), I64_MIN ≤ b → b ≤ I64_MAX →
      I64_MIN ≤ mmValFoldMin e w p ms b ∧ mmValFoldMin e w p ms b ≤ I64_MAX := by
  intro ms
  induction ms with
  | nil => intro b h1 h2; exact ⟨h1, h2⟩
  | cons mv ms ih =>
      intro b h1 h2
      simp only [mmValFoldMin]
      have := hw (e.applyMove p mv)
      exact ih _ (by omega) (by omega)

/-- When every static evaluation is a representable `i64` value, so is
every unpruned search value. -/
theorem minimax_bounds
    (Heval : ∀ q, I64_MIN ≤ calc_board_value e T q ∧
      calc_board_value e T q ≤ I64_MAX) :
    ∀ (d : Nat) (p : Pos) (m : Bool),
      I64_MIN ≤ (minimax e T d p m 0).1 ∧ (minimax e T d p m 0).1 ≤ I64_MAX := by
  intro d
  induction d with
  | zero => intro p m; exact Heval p
  | succ d ih =>
      intro p m
      simp only [minimax]
      split
      case isTrue hterm => exact Heval p
      case isFalse hterm =>
        have hMM := le_of_lt I64_MIN_lt_I64_MAX
        cases m with
        | true =>
            simp only [if_true]
            have hV : (maxLoopFull e (fun q t => minimax e T d q false t) p
                (e.legalMoves p) I64_MIN 0).1 =
                mmValFold e (fun q => (minimax e T d q false 0).1) p
                  (e.legalMoves p) I64_MIN := by
              refine maxLoopFull_fst e _ _ p (fun q t => ?_) _ _ _
              rw [minimax_total e T d q false t]
            rw [hV]
            exact mmValFold_bounds e _ p (fun q => ih q false) _ _ le_rfl hMM
        | false =>
            simp only [Bool.false_eq_true, if_false]
            have hV : (minLoopFull e (fun q t => minimax e T d q true t) p
                (e.legalMoves p) I64_MAX 0).1 =
                mmValFoldMin e (fun q => (minimax e T d q true 0).1) p
                  (e.legalMoves p) I64_MAX := by
              refine minLoopFull_fst e _ _ p (fun q t => ?_) _ _ _
              rw [minimax_total e T d q true t]
            rw [hV]
            exact mmValFoldMin_bounds e _ p (fun q => ih q true) _ _ hMM le_rfl

/-- The cutoff-free maximizing loop never decreases the counter. -/
theorem maxLoopFull_count_mono (f : Pos → Int → Int × Int) (p : Pos)
    (hf : ∀ q t, t ≤ (f q t).2) :
    ∀ (ms : List Mv) (b t : Int), t ≤ (maxLoopFull e f p ms b t).2 := by
  intro ms
  induction ms with
  | nil => intro b t; exact le_refl t
  | cons mv ms ih =>
      intro b t
      simp only [maxLoopFull]
      exact le_trans (hf (e.applyMove p mv) t) (ih _ _)

/-- The cutoff-free minimizing loop never decreases the counter. -/
theorem minLoopFull_count_mono (f : Pos → Int → Int × Int) (p : Pos)
    (hf : ∀ q t, t ≤ (f q t).2) :
    ∀ (ms : List Mv) (b t : Int), t ≤ (minLoopFull e f p ms b t).2 := by
  intro ms
  induction ms with
  | nil => intro b t; exact le_refl t
  | cons mv ms ih =>
      intro b t
      simp only [minLoopFull]
      exact le_trans (hf (e.applyMove p mv) t) (ih _ _)

/-- The unpruned search never decreases the counter. -/
theorem minimax_count_mono :
    ∀ (d : Nat) (p : Pos) (m : Bool) (t : Int), t ≤ (minimax e T d p m t).2 := by
  intro d
  induction d with
  | zero => intro p m t; simp [minimax]
  | succ d ih =>
      intro p m t
      simp only [minimax]
      split
      · simp
      · split
        · exact maxLoopFull_count_mono e _ p (fun q t => ih q false t) _ _ _
        · exact minLoopFull_count_mono e _ p (fun q t => ih q true t) _ _ _

/-- The pruned maximizing loop evaluates no more leaves than the
cutoff-free one, whatever the windows. -/
theorem maxLoop_count_le (f : Pos → Int → Int → Int → Int × Int)
    (g : Pos → Int → Int × Int) (p : Pos)
    (hfg : ∀ q a b t t', t ≤ t' → (f q a b t).2 ≤ (g q t').2)
    (hg : ∀ q t, t ≤ (g q t).2) :
    ∀ (ms : List Mv) (bf α β t bg t' : Int), t ≤ t' →
      (maxLoop e f p ms bf α β t).2 ≤ (maxLoopFull e g p ms bg t').2 := by
  intro ms
  induction ms with
  | nil => intro bf α β t bg t' h; exact h
  | cons mv ms ih =>
      intro bf α β t bg t' h
      simp only [maxLoop, maxLoopFull]
      have hc := hfg (e.applyMove p mv) α β t t' h
      split
      · exact le_trans hc (maxLoopFull_count_mono e g p hg ms _ _)
      · exact ih _ _ _ _ _ _ hc

/-- The pruned minimizing loop evaluates no more leaves than the
cutoff-free one. -/
theorem minLoop_count_le (f : Pos → Int → Int → Int → Int × Int)
    (g : Pos → Int → Int × Int) (p : Pos)
    (hfg : ∀ q a b t t', t ≤ t' → (f q a b t).2 ≤ (g q t').2)
    (hg : ∀ q t, t ≤ (g q t).2) :
    ∀ (ms : List Mv) (bf α β t bg t' : Int), t ≤ t' →
      (minLoop e f p ms bf α β t).2 ≤ (minLoopFull e g p ms bg t').2 := by
  intro ms
  induction ms with
  | nil => intro bf α β t bg t' h; exact h
  | cons mv ms ih =>
      intro bf α β t bg t' h
      simp only [minLoop, minLoopFull]
      have hc := hfg (e.applyMove p mv) α β t t' h
      split
      · exact le_trans hc (minLoopFull_count_mono e g p hg ms _ _)
      · exact ih _ _ _ _ _ _ hc

/-- The pruned search evaluates no more leaves than the unpruned one. -/
theorem alpha_beta_count_le :
    ∀ (d : Nat) (p : Pos) (m : Bool) (α β t t' : Int), t ≤ t' →
      (alpha_beta e T d p m α β t).2 ≤ (minimax e T d p m t').2 := by
  intro d
  induction d with
  | zero => intro p m α β t t' h; simp only [alpha_beta, minimax]; omega
  | succ d ih =>
      intro p m α β t t' h
      simp only [alpha_beta, minimax]
      split
      · dsimp only; omega
      · split
        · exact maxLoop_count_le e _ _ p
            (fun q a b t t' ht => ih q false a b t t' ht)
            (fun q t => minimax_count_mono e T d q false t)
            (e.legalMoves p) I64_MIN α β t I64_MIN t' h
        · exact minLoop_count_le e _ _ p
            (fun q a b t t' ht => ih q true a b t t' ht)
            (fun q t => minimax_count_mono e T d q true t)
            (e.legalMoves p) I64_MAX α β t I64_MAX t' h

end LoopLemmas

/-- C1: for every position, every depth, and the full initial window, the
pruned search returns the same value as the same recursion with the cutoff
condition disabled (plain minimax over the same tree) and performs no more
leaf evaluations.  The hypothesis states that every static evaluation is a
representable `i64` value, which is trivially true of the Rust program's
`i64` evaluator. -/
theorem C1_pruned_search_equivalence {Pos Mv : Type} (e : Engine Pos Mv)
    (T : PieceTables)
    (Heval : ∀ q, I64_MIN ≤ calc_board_value e T q ∧
      calc_board_value e T q ≤ I64_MAX)
    (d : Nat) (p : Pos) (m : Bool) (c : Int) :
    (alpha_beta e T d p m I64_MIN I64_MAX c).1 = (minimax e T d p m c).1 ∧
    (alpha_beta e T d p m I64_MIN I64_MAX c).2 ≤ (minimax e T d p m c).2 := by
  constructor
  · obtain ⟨c1, c2, c3⟩ := alpha_beta_window e T d p m I64_MIN I64_MAX c
      le_rfl le_rfl I64_MIN_lt_I64_MAX
    obtain ⟨lb, ub⟩ := minimax_bounds e T Heval d p m
    rw [minimax_total e T d p m c]
    dsimp only
    omega
  · exact alpha_beta_count_le e T d p m I64_MIN I64_MAX c c le_rfl

/-- Witness for C1 on the concrete test engine, at depth 2 from the
Ongoing root. -/
theorem C1_pruned_search_equivalence_witness :
    (∀ q : Fin 4, I64_MIN ≤ calc_board_value testEngine testTables q ∧
        calc_board_value testEngine testTables q ≤ I64_MAX) ∧
      ((alpha_beta testEngine testTables 2 0 true I64_MIN I64_MAX 0).1 =
          (minimax testEngine testTables 2 0 true 0).1 ∧
        (alpha_beta testEngine testTables 2 0 true I64_MIN I64_MAX 0).2 ≤
          (minimax testEngine testTables 2 0 true 0).2) :=
  ⟨by decide,
    C1_pruned_search_equivalence testEngine testTables (by decide) 2 0 true 0⟩

section DriverLemmas

variable {Pos Mv : Type} (e : Engine Pos Mv) (T : PieceTables)

/-- The root loop never reads the counter: the chosen move and best value
are independent of it, and it comes out advanced by the loop's own leaf
count. -/
theorem fbmLoop_total (d : Nat) (black : Bool) (p : Pos) :
    ∀ (ms : List Mv) (best : Int) (bm : Option Mv) (t : Int),
      fbmLoop e T d black p ms best bm t =
        ((fbmLoop e T d black p ms best bm 0).1,
         (fbmLoop e T d black p ms best bm 0).2.1,
         t + (fbmLoop e T d black p ms best bm 0).2.2) := by
  intro ms
  induction ms with
  | nil => intro best bm t; simp [fbmLoop]
  | cons mv ms ih =>
      intro best bm t
      simp only [fbmLoop]
      rw [alpha_beta_total e T d (e.applyMove p mv) black I64_MIN I64_MAX t,
        alpha_beta_total e T d (e.applyMove p mv) black I64_MIN I64_MAX 0]
      simp only [zero_add]
      split
      · rw [ih _ _ ((alpha_beta e T d (e.applyMove p mv) black I64_MIN I64_MAX 0).2),
          ih _ _ (t + (alpha_beta e T d (e.applyMove p mv) black I64_MIN I64_MAX 0).2)]
        simp [add_assoc]
      · rw [ih _ _ ((alpha_beta e T d (e.applyMove p mv) black I64_MIN I64_MAX 0).2),
          ih _ _ (t + (alpha_beta e T d (e.applyMove p mv) black I64_MIN I64_MAX 0).2)]
        simp [add_assoc]

/-- The root loop's final counter is the incoming counter plus the sum of
the per-root-move sub-search leaf counts. -/
theorem fbmLoop_count (d : Nat) (black : Bool) (p : Pos) :
    ∀ (ms : List Mv) (best : Int) (bm : Option Mv) (t : Int),
      (fbmLoop e T d black p ms best bm t).2.2 =
        t + (ms.map (fun mv =>
          (alpha_beta e T d (e.applyMove p mv) black I64_MIN I64_MAX 0).2)).sum := by
  intro ms
  induction ms with
  | nil => intro best bm t; simp [fbmLoop]
  | cons mv ms ih =>
      intro best bm t
      simp only [fbmLoop]
      rw [alpha_beta_total e T d (e.applyMove p mv) black I64_MIN I64_MAX t]
      split
      · rw [ih]; simp [add_assoc]
      · rw [ih]; simp [add_assoc]

/-- The root loop's move choice, as the pure selection rule applied to the
list of root moves paired with their (counter-independent) search
scores. -/
theorem fbmLoop_selectBest (d : Nat) (black : Bool) (p : Pos) :
    ∀ (ms : List Mv) (best : Int) (bm : Option Mv) (t : Int),
      (fbmLoop e T d black p ms best bm t).1 =
        selectBest black
          (ms.map (fun x =>
            (x, (alpha_beta e T d (e.applyMove p x) black I64_MIN I64_MAX 0).1)))
          best bm := by
  intro ms
  induction ms with
  | nil => intro best bm t; rfl
  | cons mv ms ih =>
      intro best bm t
      simp only [fbmLoop, List.map_cons, selectBest]
      rw [alpha_beta_total e T d (e.applyMove p mv) black I64_MIN I64_MAX t]
      dsimp only
      split
      · exact ih _ _ _
      · exact ih _ _ _

/-- A move returned by the root loop is one of the candidates or the
incoming incumbent. -/
theorem fbmLoop_mem (d : Nat) (black : Bool) (p : Pos) :
    ∀ (ms : List Mv) (best : Int) (bm : Option Mv) (t : Int) (mv : Mv),
      (fbmLoop e T d black p ms best bm t).1 = some mv →
      mv ∈ ms ∨ bm = some mv := by
  intro ms
  induction ms with
  | nil => intro best bm t mv h; exact Or.inr h
  | cons x ms ih =>
      intro best bm t mv h
      simp only [fbmLoop] at h
      revert h
      split
      · intro h
        rcases ih _ _ _ _ h with hm | hm
        · exact Or.inl (List.mem_cons_of_mem x hm)
        · exact Or.inl (by simp_all)
      · intro h
        rcases ih _ _ _ _ h with hm | hm
        · exact Or.inl (List.mem_cons_of_mem x hm)
        · exact Or.inr hm

/-- Once the incumbent is set, the root loop cannot return an empty
result. -/
theorem fbmLoop_isSome (d : Nat) (black : Bool) (p : Pos) :
    ∀ (ms : List Mv) (best : Int) (bm : Option Mv) (t : Int),
      bm.isSome → ((fbmLoop e T d black p ms best bm t).1).isSome := by
  intro ms
  induction ms with
  | nil => intro best bm t h; exact h
  | cons x ms ih =>
      intro best bm t h
      simp only [fbmLoop]
      split
      · exact ih _ _ _ rfl
      · exact ih _ _ _ h

/-- `find_best_move` with its `let`s spelled out. -/
theorem find_best_move_eq (p : Pos) (d : Nat) :
    find_best_move e T p d =
      (fbmLoop e T d (decide (e.sideToMove p = Color.black)) p
        (e.legalMoves p)
        (if decide (e.sideToMove p = Color.black) then I64_MIN else I64_MAX)
        none 0).1 :=
  rfl

/-- `find_best_move_total` with its `let`s spelled out. -/
theorem find_best_move_total_eq (p : Pos) (d : Nat) :
    find_best_move_total e T p d =
      fbmLoop e T d (decide (e.sideToMove p = Color.black)) p
        (e.legalMoves p)
        (if decide (e.sideToMove p = Color.black) then I64_MIN else I64_MAX)
        none 0 :=
  rfl

end DriverLemmas

section FuelLemmas

variable {Pos Mv : Type} (e : Engine Pos Mv) (T : PieceTables)

/-- When the recursive call never runs out of fuel, neither does the
maximizing loop, and it agrees with the unbounded loop. -/
theorem maxLoopB_eq (f : Pos → Int → Int → Int → Option (Int × Int))
    (g : Pos → Int → Int → Int → Int × Int) (p : Pos)
    (hf : ∀ q a b t, f q a b t = some (g q a b t)) :
    ∀ (ms : List Mv) (b α β t : Int),
      maxLoopB e f p ms b α β t = some (maxLoop e g p ms b α β t) := by
  intro ms
  induction ms with
  | nil => intro b α β t; rfl
  | cons mv ms ih =>
      intro b α β t
      simp only [maxLoopB, maxLoop, hf]
      split
      · rfl
      · exact ih _ _ _ _

/-- The corresponding statement for the minimizing loop. -/
theorem minLoopB_eq (f : Pos → Int → Int → Int → Option (Int × Int))
    (g : Pos → Int → Int → Int → Int × Int) (p : Pos)
    (hf : ∀ q a b t, f q a b t = some (g q a b t)) :
    ∀ (ms : List Mv) (b α β t : Int),
      minLoopB e f p ms b α β t = some (minLoop e g p ms b α β t) := by
  intro ms
  induction ms with
  | nil => intro b α β t; rfl
  | cons mv ms ih =>
      intro b α β t
      simp only [minLoopB, minLoop, hf]
      split
      · rfl
      · exact ih _ _ _ _

end FuelLemmas

/-- The comparison the root selection rule applies, as a proposition:
"strictly better for the root mover" — strictly greater when Black is to
move at the root, strictly smaller when White is. -/
def Better (black_move : Bool) (x y : Int) : Prop :=
  if black_move then y < x else x < y

/-- `is_better` decides `Better`. -/
theorem is_better_iff (black_move : Bool) (x y : Int) :
    is_better black_move x y = true ↔ Better black_move x y := by
  cases black_move <;> simp [is_better, Better]

/-- `Better` is transitive. -/
theorem Better_trans (black_move : Bool) {x y z : Int}
    (h1 : Better black_move y x) (h2 : Better black_move z y) :
    Better black_move z x := by
  cases black_move <;> simp only [Better, if_true, Bool.false_eq_true,
    if_false] at h1 h2 ⊢ <;> omega

/-- Whatever fails to beat `b` is beaten by whatever beats `b`. -/
theorem Better_of_not_better (black_move : Bool) {x b y : Int}
    (h1 : ¬ Better black_move x b) (h2 : Better black_move y b) :
    Better black_move y x := by
  cases black_move <;> simp only [Better, if_true, Bool.false_eq_true,
    if_false] at h1 h2 ⊢ <;> omega

/-- What the selection rule returns: either the incoming incumbent (when
nothing beats the incoming best), or the first candidate that strictly
beats everything before it and is not beaten by anything after it. -/
theorem selectBest_map_first {Mv : Type} (black_move : Bool) (g : Mv → Int) :
    ∀ (ms : List Mv) (best : Int) (bm : Option Mv) (mv : Mv),
      selectBest black_move (ms.map (fun x => (x, g x))) best bm = some mv →
      (bm = some mv ∧ ∀ x ∈ ms, ¬ Better black_move (g x) best) ∨
      (∃ l1 l2, ms = l1 ++ mv :: l2 ∧ Better black_move (g mv) best ∧
        (∀ x ∈ l1, Better black_move (g mv) (g x)) ∧
        (∀ x ∈ l2, ¬ Better black_move (g x) (g mv))) := by
  intro ms
  induction ms with
  | nil => intro best bm mv h; exact Or.inl ⟨h, by simp⟩
  | cons x ms ih =>
      intro best bm mv h
      simp only [List.map_cons, selectBest] at h
      by_cases hib : is_better black_move (g x) best = true
      · rw [if_pos hib] at h
        have hxb : Better black_move (g x) best := (is_better_iff _ _ _).1 hib
        rcases ih (g x) (some x) mv h with ⟨hbm, hall⟩ | ⟨l1, l2, hms, hb, hl1, hl2⟩
        · have hx : x = mv := Option.some.inj hbm
          subst hx
          exact Or.inr ⟨[], ms, rfl, hxb, by simp, fun y hy => hall y hy⟩
        · refine Or.inr ⟨x :: l1, l2, by rw [hms, List.cons_append],
            Better_trans black_move hxb hb, ?_, hl2⟩
          intro y hy
          rcases List.mem_cons.1 hy with hy | hy
          · subst hy; exact hb
          · exact hl1 y hy
      · rw [if_neg hib] at h
        have hxb : ¬ Better black_move (g x) best :=
          fun hc => hib ((is_better_iff _ _ _).2 hc)
        rcases ih best bm mv h with ⟨hbm, hall⟩ | ⟨l1, l2, hms, hb, hl1, hl2⟩
        · refine Or.inl ⟨hbm, fun y hy => ?_⟩
          rcases List.mem_cons.1 hy with hy | hy
          · subst hy; exact hxb
          · exact hall y hy
        · refine Or.inr ⟨x :: l1, l2, by rw [hms, List.cons_append], hb, ?_, hl2⟩
          intro y hy
          rcases List.mem_cons.1 hy with hy | hy
          · subst hy; exact Better_of_not_better black_move hxb hb
          · exact hl1 y hy

section StrictBounds

variable {Pos Mv : Type} (e : Engine Pos Mv) (T : PieceTables)

/-- If every child value stays below `I64_MAX`, so does the maximizing
loop's result (given its incoming best does). -/
theorem maxLoop_lt_top (f : Pos → Int → Int → Int → Int × Int) (p : Pos)
    (hub : ∀ q a b t, (f q a b t).1 < I64_MAX) :
    ∀ (ms : List Mv) (b α β t : Int), b < I64_MAX →
      (maxLoop e f p ms b α β t).1 < I64_MAX := by
  intro ms
  induction ms with
  | nil => intro b α β t h; exact h
  | cons mv ms ih =>
      intro b α β t h
      simp only [maxLoop]
      have := hub (e.applyMove p mv) α β t
      split
      · dsimp only; omega
      · exact ih _ _ _ _ (by omega)

/-- If every child value stays above `I64_MIN`, so does the minimizing
loop's result. -/
theorem minLoop_gt_bot (f : Pos → Int → Int → Int → Int × Int) (p : Pos)
    (hlb : ∀ q a b t, I64_MIN < (f q a b t).1) :
    ∀ (ms : List Mv) (b α β t : Int), I64_MIN < b →
      I64_MIN < (minLoop e f p ms b α β t).1 := by
  intro ms
  induction ms with
  | nil => intro b α β t h; exact h
  | cons mv ms ih =>
      intro b α β t h
      simp only [minLoop]
      have := hlb (e.applyMove p mv) α β t
      split
      · dsimp only; omega
      · exact ih _ _ _ _ (by omega)

/-- Under the Rules-Engine invariant (an Ongoing position has at least one
legal move) and strictly representable evaluations, every search value is
strictly inside the `i64` range — in particular it never equals the
sentinels. -/
theorem alpha_beta_strict
    (h1 : ∀ q, e.status q = BoardStatus.ongoing → e.legalMoves q ≠ [])
    (hs : ∀ q, I64_MIN < calc_board_value e T q ∧
      calc_board_value e T q < I64_MAX) :
    ∀ (d : Nat) (p : Pos) (m : Bool) (α β t : Int),
      I64_MIN < (alpha_beta e T d p m α β t).1 ∧
      (alpha_beta e T d p m α β t).1 < I64_MAX := by
  intro d
  induction d with
  | zero => intro p m α β t; exact hs p
  | succ d ih =>
      intro p m α β t
      simp only [alpha_beta]
      split
      case isTrue hterm => exact hs p
      case isFalse hterm =>
        have hong : e.status p = BoardStatus.ongoing := by
          by_contra hc; exact hterm hc
        obtain ⟨mv, rest, hms⟩ :=
          List.exists_cons_of_ne_nil (h1 p hong)
        rw [hms]
        cases m with
        | true =>
            simp only [if_true, maxLoop]
            have hc := ih (e.applyMove p mv) false α β t
            constructor
            · split
              · dsimp only; omega
              · have := maxLoop_ge_init e
                  (fun q a b t => alpha_beta e T d q false a b t) p rest
                  (max (alpha_beta e T d (e.applyMove p mv) false α β t).1 I64_MIN)
                  (max α (max (alpha_beta e T d (e.applyMove p mv) false α β t).1 I64_MIN))
                  β (alpha_beta e T d (e.applyMove p mv) false α β t).2
                omega
            · split
              · dsimp only
                have := I64_MIN_lt_I64_MAX
                omega
              · refine maxLoop_lt_top e _ p
                  (fun q a b t => (ih q false a b t).2) rest _ _ _ _ ?_
                have := I64_MIN_lt_I64_MAX
                omega
        | false =>
            simp only [Bool.false_eq_true, if_false, minLoop]
            have hc := ih (e.applyMove p mv) true α β t
            constructor
            · split
              · dsimp only
                have := I64_MIN_lt_I64_MAX
                omega
              · refine minLoop_gt_bot e _ p
                  (fun q a b t => (ih q true a b t).1) rest _ _ _ _ ?_
                have := I64_MIN_lt_I64_MAX
                omega
            · split
              · dsimp only; omega
              · have := minLoop_le_init e
                  (fun q a b t => alpha_beta e T d q true a b t) p rest
                  (min (alpha_beta e T d (e.applyMove p mv) true α β t).1 I64_MAX)
                  α
                  (min β (min (alpha_beta e T d (e.applyMove p mv) true α β t).1 I64_MAX))
                  (alpha_beta e T d (e.applyMove p mv) true α β t).2
                omega

end StrictBounds

/-- C3: on an Ongoing position, a depth-0 search with the full window is
exactly static evaluation, and the leaf counter is incremented by exactly
one. -/
theorem C3_depth_zero_search {Pos Mv : Type} (e : Engine Pos Mv)
    (T : PieceTables) (p : Pos) (m : Bool) (c : Int)
    (_h : e.status p = BoardStatus.ongoing) :
    alpha_beta e T 0 p m I64_MIN I64_MAX c = (calc_board_value e T p, c + 1) :=
  rfl

/-- Witness for C3 on the concrete test engine. -/
theorem C3_depth_zero_search_witness :
    testEngine.status 0 = BoardStatus.ongoing ∧
      alpha_beta testEngine testTables 0 0 true I64_MIN I64_MAX 0 =
        (calc_board_value testEngine testTables 0, 1) :=
  ⟨by decide, C3_depth_zero_search testEngine testTables 0 true 0 (by decide)⟩

/-- C4: on a Checkmate position the evaluator returns `+20000` when White
is the side to move and `-20000` otherwise; on a Stalemate position it
returns `0`. -/
theorem C4_terminal_eval {Pos Mv : Type} (e : Engine Pos Mv)
    (T : PieceTables) (p : Pos) :
    (e.status p = BoardStatus.checkmate →
      calc_board_value e T p =
        if e.sideToMove p = Color.white then 20000 else -20000) ∧
    (e.status p = BoardStatus.stalemate → calc_board_value e T p = 0) := by
  constructor <;> intro h <;> simp [calc_board_value, h]

/-- Witness for C4: positions `1` (Checkmate, White to move), `3`
(Checkmate, Black to move) and `2` (Stalemate) of the test engine. -/
theorem C4_terminal_eval_witness :
    testEngine.status 1 = BoardStatus.checkmate ∧
      testEngine.status 3 = BoardStatus.checkmate ∧
      testEngine.status 2 = BoardStatus.stalemate ∧
      calc_board_value testEngine testTables 1 = 20000 ∧
      calc_board_value testEngine testTables 3 = -20000 ∧
      calc_board_value testEngine testTables 2 = 0 := by
  refine ⟨by decide, by decide, by decide, ?_, ?_, ?_⟩
  · have h := (C4_terminal_eval testEngine testTables 1).1 (by decide)
    rw [h]; decide
  · have h := (C4_terminal_eval testEngine testTables 3).1 (by decide)
    rw [h]; decide
  · exact (C4_terminal_eval testEngine testTables 2).2 (by decide)

/-- C5: on an Ongoing position the evaluator returns the sum, over every
piece on the board of either color, of `−(base value + positional bonus)`,
the bonus indexed by the piece's square for White and by the mirrored
square `63 − location` for Black — the same negative term regardless of
color. -/
theorem C5_ongoing_eval {Pos Mv : Type} (e : Engine Pos Mv)
    (T : PieceTables) (p : Pos) (h : e.status p = BoardStatus.ongoing) :
    calc_board_value e T p = spec_pieces_value e T p := by
  have hpc : ∀ (pc : Fin 6) (sq : Fin 64) (o : Option Color),
      calc_piece_value T pc sq o =
        (match o with
          | some c => spec_contribution T c pc sq
          | none => 0) := by
    intro pc sq o
    cases o with
    | none => rfl
    | some c => cases c <;> simp [calc_piece_value, spec_contribution]
  simp only [calc_board_value, h]
  rw [calc_pieces_value_eq_sum]
  unfold spec_pieces_value
  simp only [hpc]

/-- Witness for C5: the test engine's Ongoing position `0`, holding a White
pawn on square 8 (contribution `−(1+8)`) and a Black pawn on square 55
(mirrored index 8, contribution `−(1+8)`), total `−18`. -/
theorem C5_ongoing_eval_witness :
    testEngine.status 0 = BoardStatus.ongoing ∧
      calc_board_value testEngine testTables 0 =
        spec_pieces_value testEngine testTables 0 ∧
      calc_board_value testEngine testTables 0 = -18 := by
  refine ⟨by decide, C5_ongoing_eval testEngine testTables 0 (by decide), ?_⟩
  decide

/-- C2: on a root position with at least one legal move, `find_best_move`
is exactly the pure selection rule applied to the root moves, each scored
by a searcher call on the child with depth equal to the root ply depth
(not decremented), with the maximizing flag equal to the root's own
side-to-move test (not flipped for the child), and with a fresh full
window and a counter-independent score for every root sibling. -/
theorem C2_root_call_shape {Pos Mv : Type} (e : Engine Pos Mv)
    (T : PieceTables) (p : Pos) (d : Nat) (_hmoves : e.legalMoves p ≠ []) :
    find_best_move e T p d =
      selectBest (decide (e.sideToMove p = Color.black))
        ((e.legalMoves p).map (fun mv => (mv, rootScore e T p d mv)))
        (if decide (e.sideToMove p = Color.black) then I64_MIN else I64_MAX)
        none := by
  rw [find_best_move_eq, fbmLoop_selectBest]
  rfl

/-- Witness for C2 on the concrete test engine. -/
theorem C2_root_call_shape_witness :
    testEngine.legalMoves 0 ≠ [] ∧
      find_best_move testEngine testTables 0 1 =
        selectBest (decide (testEngine.sideToMove 0 = Color.black))
          ((testEngine.legalMoves 0).map
            (fun mv => (mv, rootScore testEngine testTables 0 1 mv)))
          (if decide (testEngine.sideToMove 0 = Color.black) then I64_MIN
            else I64_MAX)
          none :=
  ⟨by decide, C2_root_call_shape testEngine testTables 0 1 (by decide)⟩

/-- C6: under the Rules-Engine invariant (an Ongoing position has at least
one legal move, a terminal one has none) and strictly representable
evaluations, `find_best_move` returns an empty result exactly on
non-Ongoing positions, and on an Ongoing position it returns one of the
legal moves. -/
theorem C6_none_iff_not_ongoing {Pos Mv : Type} (e : Engine Pos Mv)
    (T : PieceTables)
    (h1 : ∀ q, e.status q = BoardStatus.ongoing → e.legalMoves q ≠ [])
    (h2 : ∀ q, e.status q ≠ BoardStatus.ongoing → e.legalMoves q = [])
    (hs : ∀ q, I64_MIN < calc_board_value e T q ∧
      calc_board_value e T q < I64_MAX)
    (p : Pos) (d : Nat) :
    (find_best_move e T p d = none ↔ e.status p ≠ BoardStatus.ongoing) ∧
    (∀ mv, find_best_move e T p d = some mv → mv ∈ e.legalMoves p) := by
  constructor
  · constructor
    · intro hnone
      intro hong
      obtain ⟨mv, rest, hms⟩ := List.exists_cons_of_ne_nil (h1 p hong)
      rw [find_best_move_eq, hms] at hnone
      cases hb : decide (e.sideToMove p = Color.black) with
      | false =>
          rw [hb] at hnone
          simp only [Bool.false_eq_true, if_false, fbmLoop] at hnone
          have hlt := (alpha_beta_strict e T h1 hs d (e.applyMove p mv)
            false I64_MIN I64_MAX 0).2
          have hib : is_better false
              (alpha_beta e T d (e.applyMove p mv) false I64_MIN I64_MAX 0).1
              I64_MAX = true := by
            simp [is_better, hlt]
          rw [if_pos hib] at hnone
          have hsome := fbmLoop_isSome e T d false p rest
            (alpha_beta e T d (e.applyMove p mv) false I64_MIN I64_MAX 0).1
            (some mv)
            (alpha_beta e T d (e.applyMove p mv) false I64_MIN I64_MAX 0).2
            rfl
          rw [hnone] at hsome
          simp at hsome
      | true =>
          rw [hb] at hnone
          simp only [if_true, fbmLoop] at hnone
          have hgt := (alpha_beta_strict e T h1 hs d (e.applyMove p mv)
            true I64_MIN I64_MAX 0).1
          have hib : is_better true
              (alpha_beta e T d (e.applyMove p mv) true I64_MIN I64_MAX 0).1
              I64_MIN = true := by
            simp [is_better, hgt]
          rw [if_pos hib] at hnone
          have hsome := fbmLoop_isSome e T d true p rest
            (alpha_beta e T d (e.applyMove p mv) true I64_MIN I64_MAX 0).1
            (some mv)
            (alpha_beta e T d (e.applyMove p mv) true I64_MIN I64_MAX 0).2
            rfl
          rw [hnone] at hsome
          simp at hsome
    · intro hterm
      rw [find_best_move_eq, h2 p hterm]
      rfl
  · intro mv hmv
    rw [find_best_move_eq] at hmv
    rcases fbmLoop_mem e T d _ p (e.legalMoves p) _ none 0 mv hmv with hm | hm
    · exact hm
    · exact absurd hm (by simp)

/-- Witness for C6: the test engine at its Ongoing root (a move is found)
and at a Checkmate position (no move is found). -/
theorem C6_none_iff_not_ongoing_witness :
    ((find_best_move testEngine testTables 0 1 = none ↔
        testEngine.status 0 ≠ BoardStatus.ongoing) ∧
      (∀ mv, find_best_move testEngine testTables 0 1 = some mv →
        mv ∈ testEngine.legalMoves 0)) ∧
    ((find_best_move testEngine testTables 1 1 = none ↔
        testEngine.status 1 ≠ BoardStatus.ongoing) ∧
      (∀ mv, find_best_move testEngine testTables 1 1 = some mv →
        mv ∈ testEngine.legalMoves 1)) :=
  ⟨C6_none_iff_not_ongoing testEngine testTables (by decide) (by decide)
      (by decide) 0 1,
    C6_none_iff_not_ongoing testEngine testTables (by decide) (by decide)
      (by decide) 1 1⟩

/-- C7: a move returned by `find_best_move` is the first legal move (in
the Rules Engine's enumeration order) attaining the extremal root score:
it strictly beats the initial sentinel and every earlier sibling's score
under the root mover's comparison (greater-than when Black is to move,
less-than when White is), and no later sibling's score strictly beats it —
so among equally scored root moves the first one is returned. -/
theorem C7_root_selection_rule {Pos Mv : Type} (e : Engine Pos Mv)
    (T : PieceTables) (p : Pos) (d : Nat) (mv : Mv)
    (h : find_best_move e T p d = some mv) :
    ∃ l1 l2, e.legalMoves p = l1 ++ mv :: l2 ∧
      Better (decide (e.sideToMove p = Color.black)) (rootScore e T p d mv)
        (if decide (e.sideToMove p = Color.black) then I64_MIN else I64_MAX) ∧
      (∀ x ∈ l1, Better (decide (e.sideToMove p = Color.black))
        (rootScore e T p d mv) (rootScore e T p d x)) ∧
      (∀ x ∈ l2, ¬ Better (decide (e.sideToMove p = Color.black))
        (rootScore e T p d x) (rootScore e T p d mv)) := by
  rw [find_best_move_eq, fbmLoop_selectBest] at h
  rcases selectBest_map_first (decide (e.sideToMove p = Color.black))
      (rootScore e T p d) (e.legalMoves p) _ none mv h with
    ⟨hbm, _⟩ | ⟨l1, l2, hms, hb, hl1, hl2⟩
  · exact absurd hbm (by simp)
  · exact ⟨l1, l2, hms, hb, hl1, hl2⟩

/-- Witness for C7: on the test engine (White to move at the root,
depth 1) the returned move is the second one, whose child evaluates to 0,
strictly below the first sibling's 20000. -/
theorem C7_root_selection_rule_witness :
    ∃ l1 l2, testEngine.legalMoves 0 = l1 ++ (1 : Fin 2) :: l2 ∧
      Better (decide (testEngine.sideToMove 0 = Color.black))
        (rootScore testEngine testTables 0 1 1)
        (if decide (testEngine.sideToMove 0 = Color.black) then I64_MIN
          else I64_MAX) ∧
      (∀ x ∈ l1, Better (decide (testEngine.sideToMove 0 = Color.black))
        (rootScore testEngine testTables 0 1 1)
        (rootScore testEngine testTables 0 1 x)) ∧
      (∀ x ∈ l2, ¬ Better (decide (testEngine.sideToMove 0 = Color.black))
        (rootScore testEngine testTables 0 1 x)
        (rootScore testEngine testTables 0 1 1)) :=
  C7_root_selection_rule testEngine testTables 0 1 1 (by decide)

/-- C8: the leaf counter is pure instrumentation.  The searcher's value is
independent of the incoming counter and the counter is advanced by exactly
the search's own count of terminal evaluations; the root loop's move
choice is likewise independent of the counter; and one `find_best_move`
invocation threads a single counter, whose final value is the sum over the
root moves of the leaf counts of their sub-searches — the leaves actually
visited under pruning, not the unpruned tree size (the pruned count is
bounded by the unpruned one in `C1`'s theorem). -/
theorem C8_leaf_counter_invariant {Pos Mv : Type} (e : Engine Pos Mv)
    (T : PieceTables) :
    (∀ (d : Nat) (p : Pos) (m : Bool) (α β c : Int),
        (alpha_beta e T d p m α β c).1 = (alpha_beta e T d p m α β 0).1 ∧
        (alpha_beta e T d p m α β c).2 = c + (alpha_beta e T d p m α β 0).2) ∧
    (∀ (d : Nat) (black_move : Bool) (p : Pos) (ms : List Mv) (best : Int)
        (bm : Option Mv) (c : Int),
        (fbmLoop e T d black_move p ms best bm c).1 =
          (fbmLoop e T d black_move p ms best bm 0).1) ∧
    (∀ (p : Pos) (d : Nat),
        (find_best_move_total e T p d).2.2 =
          ((e.legalMoves p).map (fun mv =>
            (alpha_beta e T d (e.applyMove p mv)
              (decide (e.sideToMove p = Color.black))
              I64_MIN I64_MAX 0).2)).sum) := by
  refine ⟨fun d p m α β c => ?_, fun d bk p ms best bm c => ?_,
    fun p d => ?_⟩
  · rw [alpha_beta_total e T d p m α β c]
    exact ⟨rfl, rfl⟩
  · rw [fbmLoop_total e T d bk p ms best bm c]
  · rw [find_best_move_total_eq, fbmLoop_count]
    simp

/-- C9: determinism — two runs of `find_best_move` against Rules Engines
that report the same statuses, sides to move, legal-move enumerations
(same order), move applications and piece placements, with the same piece
tables, return the same move and accumulate the same leaf count. -/
theorem C9_deterministic {Pos Mv : Type} (e1 e2 : Engine Pos Mv)
    (T1 T2 : PieceTables)
    (hst : e1.status = e2.status) (hsd : e1.sideToMove = e2.sideToMove)
    (hlm : e1.legalMoves = e2.legalMoves) (ham : e1.applyMove = e2.applyMove)
    (hpo : e1.piecesOf = e2.piecesOf) (hco : e1.colorOn = e2.colorOn)
    (hv : T1.vals = T2.vals) (hsq : T1.squares = T2.squares)
    (p : Pos) (d : Nat) :
    find_best_move e1 T1 p d = find_best_move e2 T2 p d ∧
    (find_best_move_total e1 T1 p d).2.2 =
      (find_best_move_total e2 T2 p d).2.2 := by
  have he : e1 = e2 := by
    cases e1
    cases e2
    dsimp only at hst hsd hlm ham hpo hco
    subst hst hsd hlm ham hpo hco
    rfl
  have hT : T1 = T2 := by
    cases T1
    cases T2
    dsimp only at hv hsq
    subst hv hsq
    rfl
  subst he
  subst hT
  exact ⟨rfl, rfl⟩

/-- Witness for C9: two identical runs on the test engine. -/
theorem C9_deterministic_witness :
    find_best_move testEngine testTables 0 1 =
      find_best_move testEngine testTables 0 1 ∧
    (find_best_move_total testEngine testTables 0 1).2.2 =
      (find_best_move_total testEngine testTables 0 1).2.2 :=
  C9_deterministic testEngine testEngine testTables testTables
    rfl rfl rfl rfl rfl rfl rfl rfl 0 1

/-- C10: the searcher's recursion is well-founded on the depth argument
alone: with any fuel bound strictly greater than `d`, the
fuel-instrumented searcher completes (never exhausts its fuel) and agrees
with `alpha_beta`, for every Rules Engine — in particular with no
assumption that the game reaches a terminal status. -/
theorem C10_search_terminates {Pos Mv : Type} (e : Engine Pos Mv)
    (T : PieceTables) :
    ∀ (d fuel : Nat), d < fuel → ∀ (p : Pos) (m : Bool) (α β c : Int),
      alpha_beta_bounded e T fuel d p m α β c =
        some (alpha_beta e T d p m α β c) := by
  intro d
  induction d with
  | zero =>
      intro fuel hf p m α β c
      match fuel, hf with
      | fuel + 1, _ =>
          simp [alpha_beta_bounded, alpha_beta]
  | succ d ih =>
      intro fuel hf p m α β c
      match fuel, hf with
      | fuel + 1, hf =>
          have hd : d < fuel := Nat.lt_of_succ_lt_succ hf
          by_cases hstat : e.status p ≠ BoardStatus.ongoing
          · simp [alpha_beta_bounded, alpha_beta, hstat]
          · simp only [alpha_beta_bounded, alpha_beta, hstat,
              Nat.succ_ne_zero, false_or, if_false, Nat.add_sub_cancel,
              not_false_eq_true]
            cases m with
            | true =>
                simp only [if_true]
                exact maxLoopB_eq e
                  (fun q a b t => alpha_beta_bounded e T fuel d q false a b t)
                  (fun q a b t => alpha_beta e T d q false a b t) p
                  (fun q a b t => ih fuel hd q false a b t) _ _ _ _ _
            | false =>
                simp only [Bool.false_eq_true, if_false]
                exact minLoopB_eq e
                  (fun q a b t => alpha_beta_bounded e T fuel d q true a b t)
                  (fun q a b t => alpha_beta e T d q true a b t) p
                  (fun q a b t => ih fuel hd q true a b t) _ _ _ _ _

/-- Witness for C10: fuel `2` suffices for a depth-1 search on the test
engine. -/
theorem C10_search_terminates_witness :
    (1 : Nat) < 2 ∧
      alpha_beta_bounded testEngine testTables 2 1 0 true I64_MIN I64_MAX 0 =
        some (alpha_beta testEngine testTables 1 0 true I64_MIN I64_MAX 0) :=
  ⟨by decide,
    C10_search_terminates testEngine testTables 1 2 (by decide) 0 true
      I64_MIN I64_MAX 0⟩

end Scacchi
